import Mathlib

/-!
Shallow embedding of run_cbnftfloorprice.py: a batch floor-price estimator
for NFT collections.  Trade prices are modelled as rationals; the two
transcendental maps used by the script (np.log at line 23 and np.exp at
line 119) enter the claims only structurally, so the pipeline is
parameterized by arbitrary maps on the rationals standing for them.  The
helper module cbnftfloorprice (create_lookback, remove_outliers,
compute_quantile, compute_new_quantile) is not part of the repository
sources; those four operations are modelled from the spec where noted, and
the undocumented outlier rule is a parameter of the pipeline.
-/

deriving instance DecidableEq for Except

set_option maxRecDepth 8000

namespace CbNft

attribute [local semireducible] Rat.mul Rat.add Rat.sub Rat.inv

/-- Configuration constants of the script (lines 8-14). -/
def LOOKBACK : ℕ := 140

/-- Backtest horizon length (line 9). -/
def BACKTEST : ℕ := 800

/-- Nominal target quantile (line 10). -/
def PCT_TARGET : ℚ := 5/100

/-- Lower controller bound (line 11). -/
def PCT_TARGET_MIN : ℚ := 2/100

/-- Upper controller bound (line 12). -/
def PCT_TARGET_MAX : ℚ := 1/10

/-- Controller damping (line 13). -/
def SPEED : ℚ := 1/2

/-- Anti-manipulation buffer against the bid TWAP (line 14). -/
def TWAP_Buffer_PCT : ℚ := 95/100

/-- One raw row of nft_trades.csv.  The twap-bid column may hold a missing
value (pandas NaN), modelled as none. -/
structure Trade where
  chain : ℕ
  contract : ℕ
  tokenId : ℕ
  block : ℕ
  priceEth : ℚ
  twapBid : Option ℚ
deriving DecidableEq, Repr

/-- A row after the log_price column has been added (line 23). -/
structure Row where
  chain : ℕ
  contract : ℕ
  tokenId : ℕ
  block : ℕ
  priceEth : ℚ
  twapBid : Option ℚ
  logPrice : ℚ
deriving DecidableEq, Repr

/-- Line 22: keep only rows with price_eth > 0. -/
def afterPos (raw : List Trade) : List Trade :=
  raw.filter (fun t => decide (0 < t.priceEth))

/-- Line 23: add the log_price column; np.log is the parameter lg. -/
def addLog (lg : ℚ → ℚ) (raw : List Trade) : List Row :=
  raw.map (fun t =>
    { chain := t.chain, contract := t.contract, tokenId := t.tokenId,
      block := t.block, priceEth := t.priceEth, twapBid := t.twapBid,
      logPrice := lg t.priceEth })

/-- Line 27 predicate: price_eth >= twap-bid * TWAP_Buffer_PCT.  A missing
twap-bid gives NaN on the right; in pandas the comparison is then false and
the row is dropped, hence the none branch returns false. -/
def twapOk (r : Row) : Bool :=
  match r.twapBid with
  | none => false
  | some t => decide (t * TWAP_Buffer_PCT ≤ r.priceEth)

/-- Line 27: drop rows priced below the TWAP buffer or missing the bid. -/
def afterTwap (rs : List Row) : List Row :=
  rs.filter twapOk

/-- Lexicographic order on natural-number key lists, used to model the
stable multi-column sorts pandas performs via np.lexsort. -/
def lexLeB : List ℕ → List ℕ → Bool
  | [], _ => true
  | _ :: _, [] => false
  | a :: as, b :: bs => a < b || (a == b && lexLeB as bs)

theorem lexLeB_total (as bs : List ℕ) : lexLeB as bs = true ∨ lexLeB bs as = true := by
  induction as generalizing bs with
  | nil => left; rfl
  | cons a as ih =>
    cases bs with
    | nil => right; rfl
    | cons b bs =>
      rcases Nat.lt_trichotomy a b with h | h | h
      · left; simp [lexLeB, h]
      · subst h
        rcases ih bs with h' | h'
        · left; simp [lexLeB, h']
        · right; simp [lexLeB, h']
      · right; simp [lexLeB, h]

theorem lexLeB_trans {as bs cs : List ℕ} (h1 : lexLeB as bs = true)
    (h2 : lexLeB bs cs = true) : lexLeB as cs = true := by
  induction as generalizing bs cs with
  | nil => rfl
  | cons a as ih =>
    cases bs with
    | nil => simp [lexLeB] at h1
    | cons b bs =>
      cases cs with
      | nil => simp [lexLeB] at h2
      | cons c cs =>
        simp only [lexLeB, Bool.or_eq_true, Bool.and_eq_true, beq_iff_eq,
          decide_eq_true_eq] at h1 h2 ⊢
        rcases h1 with h1 | ⟨h1, h1'⟩
        · rcases h2 with h2 | ⟨h2, h2'⟩
          · exact Or.inl (h1.trans h2)
          · exact Or.inl (h2 ▸ h1)
        · rcases h2 with h2 | ⟨h2, h2'⟩
          · exact Or.inl (h1 ▸ h2)
          · exact Or.inr ⟨h1.trans h2, ih h1' h2'⟩

/-- Sort key of line 30: chain_id, contract_address, token_id, block_number,
with the original row position as final component encoding the stability of
the pandas lexsort. -/
def keyTok (p : ℕ × Row) : List ℕ :=
  [p.2.chain, p.2.contract, p.2.tokenId, p.2.block, p.1]

/-- Order relation realizing the stable sort of line 30. -/
def tokLE (a b : ℕ × Row) : Prop := lexLeB (keyTok a) (keyTok b) = true

instance : DecidableRel tokLE := fun a b => by unfold tokLE; infer_instance

instance : IsTotal (ℕ × Row) tokLE :=
  ⟨fun a b => lexLeB_total (keyTok a) (keyTok b)⟩

instance : IsTrans (ℕ × Row) tokLE :=
  ⟨fun _ _ _ h1 h2 => lexLeB_trans h1 h2⟩

/-- Line 30: stable sort of the indexed rows by (chain, contract, token,
block). -/
def sortTok (e : List (ℕ × Row)) : List (ℕ × Row) :=
  List.insertionSort tokLE e

/-- The dedup unit of line 31: (chain_id, contract_address, token_id). -/
def tokOf (r : Row) : ℕ × ℕ × ℕ := (r.chain, r.contract, r.tokenId)

/-- Line 31: groupby(token key).tail(1) keeps, in frame order, each row that
has no later row of the same token key. -/
def lastPerKey : List (ℕ × Row) → List (ℕ × Row)
  | [] => []
  | p :: l =>
    if l.any (fun q => decide (tokOf q.2 = tokOf p.2)) then lastPerKey l
    else p :: lastPerKey l

/-- Lines 30-31: sanitized rows are indexed, stably sorted by token key and
block, and deduplicated to the most recent row per token key. -/
def dedup (rs : List Row) : List Row :=
  (lastPerKey (sortTok rs.enum)).map Prod.snd

/-- Lines 22-31: full preprocessing of the raw table. -/
def preprocess (lg : ℚ → ℚ) (raw : List Trade) : List Row :=
  dedup (afterTwap (addLog lg (afterPos raw)))

/-- The unit of estimation: (chain_id, contract_address). -/
def collKey (r : Row) : ℕ × ℕ := (r.chain, r.contract)

/-- Collection keys present in the working set; within the deduplicated
frame the keys of a collection are contiguous, so dedup order equals
groupby order. -/
def keysOf (rs : List Row) : List (ℕ × ℕ) :=
  (rs.map collKey).dedup

/-- Rows of one collection, in frame order (models pandas groupby). -/
def groupOf (rs : List Row) (k : ℕ × ℕ) : List Row :=
  rs.filter (fun r => decide (collKey r = k))

/-- Sort key of lines 34-36 restricted to one collection: block_number with
the original position as stability tiebreak. -/
def keyBlk (p : ℕ × Row) : List ℕ := [p.2.block, p.1]

/-- Order relation realizing the stable block sort of lines 34-36 within a
collection. -/
def blkLE (a b : ℕ × Row) : Prop := lexLeB (keyBlk a) (keyBlk b) = true

instance : DecidableRel blkLE := fun a b => by unfold blkLE; infer_instance

instance : IsTotal (ℕ × Row) blkLE :=
  ⟨fun a b => lexLeB_total (keyBlk a) (keyBlk b)⟩

instance : IsTrans (ℕ × Row) blkLE :=
  ⟨fun _ _ _ h1 h2 => lexLeB_trans h1 h2⟩

/-- Lines 34-36 for one collection: stable sort by block_number. -/
def sortGroup (g : List Row) : List Row :=
  (List.insertionSort blkLE g.enum).map Prod.snd

/-- Recency order of pandas rank(method=first, ascending=false): a precedes
b when a has the larger block_number, position breaking ties. -/
def recLE (a b : ℕ × Row) : Prop :=
  b.2.block < a.2.block ∨ (a.2.block = b.2.block ∧ a.1 ≤ b.1)

instance : DecidableRel recLE := fun a b => by unfold recLE; infer_instance

instance : IsTotal (ℕ × Row) recLE := ⟨fun a b => by unfold recLE; omega⟩

instance : IsTrans (ℕ × Row) recLE := ⟨fun a b c h1 h2 => by
  unfold recLE at h1 h2 ⊢; omega⟩

/-- The descending rank order of lines 37-39 on the indexed rows of one
collection. -/
def rankSorted (e : List (ℕ × Row)) : List (ℕ × Row) :=
  List.insertionSort recLE e

/-- Position of the first occurrence of an element in a list. -/
def idxIn {α : Type} [DecidableEq α] (a : α) : List α → ℕ
  | [] => 0
  | b :: l => if a = b then 0 else idxIn a l + 1

/-- Lines 37-42 for one collection: rank = 1 + position in the descending
recency order; keep rows with rank < BACKTEST * 2 + LOOKBACK * 2. -/
def capFilter (g : List Row) : List Row :=
  let e := g.enum
  let s := rankSorted e
  (e.filter (fun a => decide (idxIn a s + 1 < BACKTEST * 2 + LOOKBACK * 2))).map
    Prod.snd

/-- Last n elements of a list (pandas tail / iloc[-n:]). -/
def lastN (n : ℕ) (l : List α) : List α :=
  l.drop (l.length - n)

/-- Modelled from the spec: cbnftfloorprice.create_lookback is not in the
repository sources.  Per section 3, the window of the trade at position i of
a block-sorted collection is the ordered sequence of up to LOOKBACK
log-prices of the most recent trades ending at and including that trade. -/
def windowAt (g : List Row) (i : ℕ) : List ℚ :=
  lastN LOOKBACK ((g.take (i + 1)).map Row.logPrice)

/-- Lines 44-49 for one collection: every row paired with its lookback
window. -/
def mkWindows (g : List Row) : List (Row × List ℚ) :=
  g.enum.map (fun p => (p.2, windowAt g p.1))

/-- Lines 51-58 for one collection: keep the last BACKTEST windows. -/
def backtestOf (ws : List (Row × List ℚ)) : List (Row × List ℚ) :=
  lastN BACKTEST ws

/-- Lines 60-64: apply the outlier filter to every window.  The rule
implemented by cbnftfloorprice.remove_outliers is not in the repository
sources and is left a parameter ro of the pipeline. -/
def filtWins (ro : List ℚ → List ℚ) (ws : List (Row × List ℚ)) :
    List (Row × List ℚ) :=
  ws.map (fun p => (p.1, ro p.2))

/-- The single failure the estimator can raise. -/
inductive QErr where
  | insufficientData
deriving DecidableEq, Repr

/-- Sequencing of fallible row-wise computations: a pandas apply whose
body may raise, the first raise aborting the whole computation. -/
def mapME (f : α → Except QErr β) : List α → Except QErr (List β)
  | [] => .ok []
  | a :: l =>
    match f a with
    | .error e => .error e
    | .ok b =>
      match mapME f l with
      | .error e => .error e
      | .ok bs => .ok (b :: bs)

/-- Type 7 interpolation value at clamped fractional rank r over the sorted
sequence s: with i the integer part of r, sorted[i] + frac * (sorted[i+1] -
sorted[i]), the upper index defaulting to the lower at the right boundary. -/
def interp (s : List ℚ) (r : ℚ) : ℚ :=
  s.getD (Int.floor r).toNat 0 +
    (r - ((Int.floor r).toNat : ℚ)) *
      (s.getD ((Int.floor r).toNat + 1) (s.getD (Int.floor r).toNat 0) -
        s.getD (Int.floor r).toNat 0)

/-- Modelled from the spec: cbnftfloorprice.compute_quantile is not in the
repository sources.  Per section 4.5 it returns the linearly interpolated
order statistic at fractional rank p * (n - 1) of the sorted sequence,
clamped at the sequence boundaries, and fails with InsufficientDataError on
an empty sequence. -/
def compute_quantile (xs : List ℚ) (p : ℚ) : Except QErr ℚ :=
  match xs with
  | [] => .error .insufficientData
  | _ :: _ =>
    let s := List.insertionSort (· ≤ ·) xs
    let n := xs.length
    let r := max 0 (min ((n : ℚ) - 1) (p * ((n : ℚ) - 1)))
    .ok (interp s r)

/-- Modelled from the spec: cbnftfloorprice.compute_new_quantile is not in
the repository sources.  Per section 4.6 it is the one-step proportional
controller clamp(nominal + speed * (desired - observed), lo, hi). -/
def compute_new_quantile (nominal desired observed speed lo hi : ℚ) : ℚ :=
  max lo (min hi (nominal + speed * (desired - observed)))

/-- Lines 66-72: nominal per-trade estimate at PCT_TARGET for every
outlier-filtered window of the backtest horizon. -/
def nominalOf (bt : List (Row × List ℚ)) : Except QErr (List (Row × ℚ)) :=
  mapME (fun p =>
    match compute_quantile p.2 PCT_TARGET with
    | .error e => .error e
    | .ok t => .ok (p.1, t)) bt

/-- Lines 74-87: fraction of backtest trades whose own log-price is at or
below their own nominal estimate. -/
def obsRate (ts : List (Row × ℚ)) : ℚ :=
  ((ts.countP (fun p => decide (p.1.logPrice ≤ p.2)) : ℚ)) / (ts.length : ℚ)

/-- Lines 89-100: the controller invocation of one collection. -/
def adjTargetOf (ts : List (Row × ℚ)) : ℚ :=
  compute_new_quantile PCT_TARGET PCT_TARGET (obsRate ts) SPEED
    PCT_TARGET_MIN PCT_TARGET_MAX

/-- Lines 102-115: adjusted log-price for every backtest row, read from the
stored outlier-filtered window at the collection's adjusted target. -/
def adjLogsOf (bt : List (Row × List ℚ)) (q : ℚ) :
    Except QErr (List (Row × ℚ)) :=
  mapME (fun p =>
    match compute_quantile p.2 q with
    | .error e => .error e
    | .ok v => .ok (p.1, v)) bt

/-- One emitted record (lines 117-125). -/
structure OutRec where
  chain : ℕ
  contract : ℕ
  floor : ℚ
deriving DecidableEq, Repr

/-- The backtest series of one collection with outlier-filtered windows,
as consumed by lines 66-115: block sort, rank cap, lookback windows,
backtest trim and the outlier filter. -/
def collPipe (ro : List ℚ → List ℚ) (g : List Row) : List (Row × List ℚ) :=
  filtWins ro (backtestOf (mkWindows (capFilter (sortGroup g))))

/-- The whole per-collection pipeline of main, lines 34-119; ex stands for
np.exp of line 119, and line 118's tail(1) keeps the last backtest row. -/
def perCollection (ex : ℚ → ℚ) (ro : List ℚ → List ℚ) (g : List Row) :
    Except QErr (List OutRec) :=
  (nominalOf (collPipe ro g)).bind (fun ts =>
    (adjLogsOf (collPipe ro g) (adjTargetOf ts)).bind (fun vs =>
      .ok ((lastN 1 vs).map (fun p => ⟨p.1.chain, p.1.contract, ex p.2⟩))))

/-- The whole program main: preprocessing, then the per-collection
estimation pipeline, one tail(1) record per collection. -/
def runPipeline (lg ex : ℚ → ℚ) (ro : List ℚ → List ℚ) (raw : List Trade) :
    Except QErr (List OutRec) :=
  match mapME (fun k => perCollection ex ro (groupOf (preprocess lg raw) k))
      (keysOf (preprocess lg raw)) with
  | .error e => .error e
  | .ok outs => .ok outs.flatten

section QuantileLemmas

/-- getD at a valid index is get. -/
theorem getD_get_of_lt (s : List ℚ) (d : ℚ) {i : ℕ} (h : i < s.length) :
    s.getD i d = s.get ⟨i, h⟩ := by
  simp [List.getD_eq_getElem?_getD, List.getElem?_eq_getElem h]

/-- In a sorted list, values are monotone in the index. -/
theorem getD_mono_of_sorted {s : List ℚ} (hs : s.Sorted (· ≤ ·)) {i j : ℕ}
    (hij : i ≤ j) (hj : j < s.length) (d d' : ℚ) :
    s.getD i d ≤ s.getD j d' := by
  have hi : i < s.length := lt_of_le_of_lt (Nat.le_of_eq rfl) (by omega)
  rw [getD_get_of_lt s d hi, getD_get_of_lt s d' hj]
  rcases Nat.lt_or_ge i j with h | h
  · exact List.Sorted.rel_get_of_lt hs (by simpa using h)
  · have : i = j := le_antisymm hij h
    subst this
    exact le_refl _

theorem toNat_floor_cast_rat {r : ℚ} (hr : 0 ≤ r) :
    (((Int.floor r).toNat : ℕ) : ℚ) = ((Int.floor r : ℤ) : ℚ) := by
  have h0 : (0 : ℤ) ≤ Int.floor r := Int.floor_nonneg.mpr hr
  have h : ((Int.floor r).toNat : ℤ) = Int.floor r := Int.toNat_of_nonneg h0
  exact_mod_cast h

theorem floor_toNat_cast_le {r : ℚ} (hr : 0 ≤ r) :
    ((Int.floor r).toNat : ℚ) ≤ r := by
  rw [toNat_floor_cast_rat hr]
  exact Int.floor_le r

theorem lt_floor_toNat_add_one {r : ℚ} (hr : 0 ≤ r) :
    r < ((Int.floor r).toNat : ℚ) + 1 := by
  rw [toNat_floor_cast_rat hr]
  exact Int.lt_floor_add_one r

theorem floor_toNat_le_of_le_sub_one {r : ℚ} {n : ℕ} (hn : 1 ≤ n)
    (hr : r ≤ (n : ℚ) - 1) : (Int.floor r).toNat ≤ n - 1 := by
  have hcast : ((n : ℚ) - 1) = (((n : ℤ) - 1 : ℤ) : ℚ) := by push_cast; ring
  have h1 : Int.floor r ≤ (n : ℤ) - 1 := by
    have := Int.floor_le_floor (α := ℚ) hr
    rwa [hcast, Int.floor_intCast] at this
  have h2 : ((n : ℤ) - 1).toNat = n - 1 := by omega
  calc (Int.floor r).toNat ≤ ((n : ℤ) - 1).toNat := Int.toNat_le_toNat h1
    _ = n - 1 := h2

/-- The slope factor of interp is nonnegative on a sorted list. -/
theorem interp_slope_nonneg {s : List ℚ} (hs : s.Sorted (· ≤ ·)) {i : ℕ}
    (hi : i < s.length) :
    0 ≤ s.getD (i + 1) (s.getD i 0) - s.getD i 0 := by
  rcases Nat.lt_or_ge (i + 1) s.length with h | h
  · have := getD_mono_of_sorted hs (Nat.le_succ i) h 0 (s.getD i 0)
    exact sub_nonneg.mpr this
  · have h' : s.getD (i + 1) (s.getD i 0) = s.getD i 0 :=
      List.getD_eq_default _ _ (by omega)
    rw [h']
    simp

/-- The interpolated value is at least its left order statistic. -/
theorem interp_ge_left {s : List ℚ} (hs : s.Sorted (· ≤ ·)) {r : ℚ}
    (hr0 : 0 ≤ r) (hrn : (Int.floor r).toNat < s.length) :
    s.getD (Int.floor r).toNat 0 ≤ interp s r := by
  have hd := interp_slope_nonneg hs hrn
  have hf : 0 ≤ r - (((Int.floor r).toNat : ℕ) : ℚ) :=
    sub_nonneg.mpr (floor_toNat_cast_le hr0)
  unfold interp
  nlinarith [mul_nonneg hf hd]

/-- The interpolated value is at most its right order statistic. -/
theorem interp_le_right {s : List ℚ} (hs : s.Sorted (· ≤ ·)) {r : ℚ}
    (hr0 : 0 ≤ r) (hrn : (Int.floor r).toNat < s.length) :
    interp s r ≤ s.getD ((Int.floor r).toNat + 1) (s.getD (Int.floor r).toNat 0) := by
  have hd := interp_slope_nonneg hs hrn
  have hf : r - (((Int.floor r).toNat : ℕ) : ℚ) ≤ 1 := by
    have := lt_floor_toNat_add_one hr0
    linarith
  unfold interp
  nlinarith [mul_le_of_le_one_left hd hf]

/-- Monotonicity of the interpolation in the fractional rank. -/
theorem interp_mono {s : List ℚ} (hs : s.Sorted (· ≤ ·)) {r1 r2 : ℚ}
    (h0 : 0 ≤ r1) (h12 : r1 ≤ r2) (hn : r2 ≤ (s.length : ℚ) - 1)
    (hne : s ≠ []) : interp s r1 ≤ interp s r2 := by
  have hlen : 1 ≤ s.length := by
    cases s with
    | nil => exact absurd rfl hne
    | cons a l => exact Nat.succ_le_succ (Nat.zero_le _)
  have h02 : 0 ≤ r2 := le_trans h0 h12
  have hi2 : (Int.floor r2).toNat ≤ s.length - 1 :=
    floor_toNat_le_of_le_sub_one hlen hn
  have hi2' : (Int.floor r2).toNat < s.length := by omega
  have hi12 : (Int.floor r1).toNat ≤ (Int.floor r2).toNat :=
    Int.toNat_le_toNat (Int.floor_le_floor h12)
  have hi1' : (Int.floor r1).toNat < s.length := by omega
  rcases Nat.lt_or_ge (Int.floor r1).toNat (Int.floor r2).toNat with hlt | hge
  · have step1 : interp s r1 ≤
        s.getD ((Int.floor r1).toNat + 1) (s.getD (Int.floor r1).toNat 0) :=
      interp_le_right hs h0 hi1'
    have hmid : (Int.floor r1).toNat + 1 ≤ (Int.floor r2).toNat := hlt
    have step2 : s.getD ((Int.floor r1).toNat + 1) (s.getD (Int.floor r1).toNat 0) ≤
        s.getD (Int.floor r2).toNat 0 :=
      getD_mono_of_sorted hs hmid hi2' _ _
    have step3 : s.getD (Int.floor r2).toNat 0 ≤ interp s r2 :=
      interp_ge_left hs h02 hi2'
    linarith
  · have heq : (Int.floor r1).toNat = (Int.floor r2).toNat := by omega
    have hd := interp_slope_nonneg hs hi2'
    have hsub : r1 - (((Int.floor r2).toNat : ℕ) : ℚ) ≤
        r2 - (((Int.floor r2).toNat : ℕ) : ℚ) := by linarith
    unfold interp
    rw [heq]
    nlinarith [mul_le_mul_of_nonneg_right hsub hd]

/-- The sorted copy used by compute_quantile. -/
theorem sorted_of_insertionSort (xs : List ℚ) :
    (List.insertionSort (· ≤ ·) xs).Sorted (· ≤ ·) :=
  List.sorted_insertionSort (· ≤ ·) xs

theorem length_insertionSort_rat (xs : List ℚ) :
    (List.insertionSort (· ≤ ·) xs).length = xs.length :=
  (List.perm_insertionSort (· ≤ ·) xs).length_eq

/-- compute_quantile succeeds on every non-empty sequence. -/
theorem compute_quantile_ok {xs : List ℚ} (h : xs ≠ []) (p : ℚ) :
    ∃ v, compute_quantile xs p = .ok v := by
  cases xs with
  | nil => exact absurd rfl h
  | cons a l => exact ⟨_, rfl⟩

/-- compute_quantile errors exactly on the empty sequence. -/
theorem compute_quantile_nil (p : ℚ) :
    compute_quantile [] p = .error .insufficientData := rfl

/-- Monotonicity of compute_quantile in the probability. -/
theorem compute_quantile_le_of_ok {xs : List ℚ} {p1 p2 v1 v2 : ℚ}
    (hne : xs ≠ []) (h12 : p1 ≤ p2)
    (h1 : compute_quantile xs p1 = .ok v1)
    (h2 : compute_quantile xs p2 = .ok v2) : v1 ≤ v2 := by
  cases xs with
  | nil => exact absurd rfl hne
  | cons a l =>
    simp only [compute_quantile] at h1 h2
    have hlen : 1 ≤ (a :: l).length := Nat.succ_le_succ (Nat.zero_le _)
    set n := (a :: l).length with hn
    set s := List.insertionSort (· ≤ ·) (a :: l) with hsdef
    have hs : s.Sorted (· ≤ ·) := sorted_of_insertionSort _
    have hslen : s.length = n := length_insertionSort_rat _
    have hnn : (0 : ℚ) ≤ (n : ℚ) - 1 := by
      have : (1 : ℚ) ≤ (n : ℚ) := by exact_mod_cast hlen
      linarith
    set r1 := max 0 (min ((n : ℚ) - 1) (p1 * ((n : ℚ) - 1))) with hr1
    set r2 := max 0 (min ((n : ℚ) - 1) (p2 * ((n : ℚ) - 1))) with hr2
    have hr12 : r1 ≤ r2 := by
      apply max_le_max (le_refl 0)
      apply min_le_min (le_refl _)
      exact mul_le_mul_of_nonneg_right h12 hnn
    have hr0 : 0 ≤ r1 := le_max_left 0 _
    have hrn : r2 ≤ (n : ℚ) - 1 := max_le hnn (min_le_left _ _)
    have hsne : s ≠ [] := by
      intro hcon
      rw [hcon] at hslen
      simp [hn] at hslen
    have := interp_mono hs hr0 hr12 (by rw [hslen]; exact hrn) hsne
    cases h1
    cases h2
    exact this

end QuantileLemmas

section EasyClaims

/-- Every row reaching the log transform has a strictly positive price. -/
theorem log_args_pos (lg : ℚ → ℚ) (raw : List Trade) :
    ∀ row ∈ addLog lg (afterPos raw),
      0 < row.priceEth ∧ row.logPrice = lg row.priceEth := by
  intro row hrow
  unfold addLog at hrow
  rcases List.mem_map.mp hrow with ⟨t, ht, rfl⟩
  unfold afterPos at ht
  rcases List.mem_filter.mp ht with ⟨_, hpos⟩
  exact ⟨by simpa using of_decide_eq_true hpos, rfl⟩

/-- Characterization of the TWAP sanitization filter. -/
theorem afterTwap_mem_iff (rs : List Row) (r : Row) :
    r ∈ afterTwap rs ↔
      r ∈ rs ∧ ∃ t, r.twapBid = some t ∧ t * TWAP_Buffer_PCT ≤ r.priceEth := by
  unfold afterTwap
  rw [List.mem_filter]
  constructor
  · rintro ⟨hmem, hok⟩
    refine ⟨hmem, ?_⟩
    unfold twapOk at hok
    cases htw : r.twapBid with
    | none => rw [htw] at hok; simp at hok
    | some t =>
      rw [htw] at hok
      exact ⟨t, rfl, of_decide_eq_true hok⟩
  · rintro ⟨hmem, t, htw, hle⟩
    refine ⟨hmem, ?_⟩
    unfold twapOk
    rw [htw]
    exact decide_eq_true hle

end EasyClaims

section MapMELemmas

variable {α β : Type} {f : α → Except QErr β}

theorem mapME_ok_length : ∀ {l : List α} {ys : List β},
    mapME f l = .ok ys → ys.length = l.length := by
  intro l
  induction l with
  | nil => intro ys h; cases h; rfl
  | cons a l ih =>
    intro ys h
    unfold mapME at h
    cases hfa : f a with
    | error e => rw [hfa] at h; cases h
    | ok b =>
      rw [hfa] at h
      cases hrec : mapME f l with
      | error e => rw [hrec] at h; cases h
      | ok bs =>
        rw [hrec] at h
        cases h
        simp [ih hrec]

theorem mapME_ok_get : ∀ {l : List α} {ys : List β},
    mapME f l = .ok ys → ∀ i (h1 : i < l.length) (h2 : i < ys.length),
      f (l.get ⟨i, h1⟩) = .ok (ys.get ⟨i, h2⟩) := by
  intro l
  induction l with
  | nil => intro ys h i h1; exact absurd h1 (Nat.not_lt_zero i)
  | cons a l ih =>
    intro ys h i h1 h2
    unfold mapME at h
    cases hfa : f a with
    | error e => rw [hfa] at h; cases h
    | ok b =>
      rw [hfa] at h
      cases hrec : mapME f l with
      | error e => rw [hrec] at h; cases h
      | ok bs =>
        rw [hrec] at h
        cases h
        cases i with
        | zero => simpa using hfa
        | succ j =>
          have hj1 : j < l.length := Nat.lt_of_succ_lt_succ h1
          have hj2 : j < bs.length := Nat.lt_of_succ_lt_succ h2
          simpa using ih hrec j hj1 hj2

theorem mapME_error_of_mem (g : α → Except QErr β) {l : List α} {a : α}
    {e : QErr} (ha : a ∈ l) (hf : g a = .error e) :
    ∃ e', mapME g l = .error e' := by
  induction l with
  | nil => cases ha
  | cons b l ih =>
    rcases List.mem_cons.mp ha with rfl | hmem
    · exact ⟨e, by unfold mapME; rw [hf]⟩
    · unfold mapME
      cases hfb : g b with
      | error e'' => exact ⟨e'', rfl⟩
      | ok y =>
        rcases ih hmem with ⟨e', he'⟩
        exact ⟨e', by rw [he']⟩

theorem mapME_ok_of_forall : ∀ {l : List α},
    (∀ a ∈ l, ∃ b, f a = .ok b) → ∃ ys, mapME f l = .ok ys := by
  intro l
  induction l with
  | nil => intro _; exact ⟨[], rfl⟩
  | cons a l ih =>
    intro h
    rcases h a (List.mem_cons_self a l) with ⟨b, hb⟩
    rcases ih (fun x hx => h x (List.mem_cons_of_mem a hx)) with ⟨bs, hbs⟩
    exact ⟨b :: bs, by unfold mapME; rw [hb, hbs]⟩

end MapMELemmas

/-- Claim C1: the controller invocation adjust(nominal, desired, observed,
speed, lo, hi) returns clamp(nominal + speed * (desired - observed), lo,
hi); for lo ≤ hi the result lies in the interval, and each collection's
single controller invocation uses nominal = desired = PCT_TARGET, speed =
SPEED and the bounds PCT_TARGET_MIN, PCT_TARGET_MAX. -/
theorem claim1_controller :
    (∀ n d o s lo hi : ℚ, compute_new_quantile n d o s lo hi =
        max lo (min hi (n + s * (d - o)))) ∧
    (∀ n d o s lo hi : ℚ, lo ≤ hi →
        lo ≤ compute_new_quantile n d o s lo hi ∧
          compute_new_quantile n d o s lo hi ≤ hi) ∧
    (∀ ts : List (Row × ℚ), adjTargetOf ts =
        compute_new_quantile PCT_TARGET PCT_TARGET (obsRate ts) SPEED
          PCT_TARGET_MIN PCT_TARGET_MAX) ∧
    (∀ ts : List (Row × ℚ),
        PCT_TARGET_MIN ≤ adjTargetOf ts ∧ adjTargetOf ts ≤ PCT_TARGET_MAX) := by
  refine ⟨fun _ _ _ _ _ _ => rfl, ?_, fun _ => rfl, ?_⟩
  · intro n d o s lo hi h
    constructor
    · exact le_max_left lo _
    · exact max_le h (min_le_left hi _)
  · intro ts
    have h : PCT_TARGET_MIN ≤ PCT_TARGET_MAX := by
      unfold PCT_TARGET_MIN PCT_TARGET_MAX
      norm_num
    constructor
    · exact le_max_left _ _
    · exact max_le h (min_le_left _ _)

/-- Witness for claim C1 at concrete controller arguments. -/
theorem claim1_controller_witness :
    (1 : ℚ)/20 ≤ 1/10 ∧
      (1 : ℚ)/20 ≤ compute_new_quantile (6/100) (6/100) (1/2) (1/2) (1/20) (1/10) ∧
      compute_new_quantile (6/100) (6/100) (1/2) (1/2) (1/20) (1/10) ≤ (1 : ℚ)/10 :=
  ⟨by norm_num,
    (claim1_controller.2.1 (6/100) (6/100) (1/2) (1/2) (1/20) (1/10)
      (by norm_num)).1,
    (claim1_controller.2.1 (6/100) (6/100) (1/2) (1/2) (1/20) (1/10)
      (by norm_num)).2⟩

/-- Claim C8: a record with price_eth below twap_bid * TWAP_Buffer_PCT is
removed by the sanitization, and a record whose twap_bid is missing is
excluded as well. -/
theorem claim8_twap_filter (rs : List Row) (r : Row) :
    ((∃ t, r.twapBid = some t ∧ r.priceEth < t * TWAP_Buffer_PCT) →
        r ∉ afterTwap rs) ∧
    (r.twapBid = none → r ∉ afterTwap rs) := by
  constructor
  · rintro ⟨t, htw, hlt⟩ hmem
    rcases (afterTwap_mem_iff rs r).mp hmem with ⟨_, t', htw', hle⟩
    rw [htw] at htw'
    cases htw'
    exact absurd hle (not_le.mpr hlt)
  · intro hnone hmem
    rcases (afterTwap_mem_iff rs r).mp hmem with ⟨_, t', htw', _⟩
    rw [hnone] at htw'
    cases htw'

/-- Witness for claim C8 at a concrete missing-benchmark record. -/
theorem claim8_twap_filter_witness :
    (Row.mk 1 1 1 1 1 none 0).twapBid = none ∧
      Row.mk 1 1 1 1 1 none 0 ∉ afterTwap [Row.mk 1 1 1 1 1 none 0] :=
  ⟨rfl, (claim8_twap_filter [Row.mk 1 1 1 1 1 none 0]
    (Row.mk 1 1 1 1 1 none 0)).2 rfl⟩

/-- Claim C9: for a fixed non-empty sequence the interpolated quantile is
monotone in the probability: p1 ≤ p2 in the unit interval gives
quantile(seq, p1) ≤ quantile(seq, p2). -/
theorem claim9_quantile_monotone (xs : List ℚ) (p1 p2 : ℚ) (hne : xs ≠ [])
    (h0 : 0 ≤ p1) (h12 : p1 ≤ p2) (h1 : p2 ≤ 1) :
    ∃ v1 v2, compute_quantile xs p1 = .ok v1 ∧
      compute_quantile xs p2 = .ok v2 ∧ v1 ≤ v2 := by
  rcases compute_quantile_ok hne p1 with ⟨v1, hv1⟩
  rcases compute_quantile_ok hne p2 with ⟨v2, hv2⟩
  exact ⟨v1, v2, hv1, hv2, compute_quantile_le_of_ok hne h12 hv1 hv2⟩

/-- Witness for claim C9 at the sequence [3, 1, 2]. -/
theorem claim9_quantile_monotone_witness :
    ([3, 1, 2] : List ℚ) ≠ [] ∧
      ∃ v1 v2, compute_quantile [3, 1, 2] (1/4) = .ok v1 ∧
        compute_quantile [3, 1, 2] (3/4) = .ok v2 ∧ v1 ≤ v2 :=
  ⟨by simp, claim9_quantile_monotone [3, 1, 2] (1/4) (3/4) (by simp)
    (by norm_num) (by norm_num) (by norm_num)⟩

/-- Claim C10: the log transform runs after the price_eth > 0 filter, so
every row reaching it has a strictly positive argument, and the log_price
column holds the transform of that argument. -/
theorem claim10_log_positive (lg : ℚ → ℚ) (raw : List Trade) :
    ∀ row ∈ addLog lg (afterPos raw),
      0 < row.priceEth ∧ row.logPrice = lg row.priceEth := by
  intro row hrow
  unfold addLog at hrow
  rcases List.mem_map.mp hrow with ⟨t, ht, rfl⟩
  unfold afterPos at ht
  rcases List.mem_filter.mp ht with ⟨_, hpos⟩
  exact ⟨by simpa using of_decide_eq_true hpos, rfl⟩

/-- Witness for claim C10 at a concrete one-row table. -/
theorem claim10_log_positive_witness :
    (Row.mk 1 2 3 4 5 (some 5) 5) ∈
        addLog id (afterPos [Trade.mk 1 2 3 4 5 (some 5)]) ∧
      0 < (Row.mk 1 2 3 4 5 (some 5) 5).priceEth ∧
      (Row.mk 1 2 3 4 5 (some 5) 5).logPrice =
        id (Row.mk 1 2 3 4 5 (some 5) 5).priceEth :=
  ⟨by decide, claim10_log_positive id [Trade.mk 1 2 3 4 5 (some 5)]
    (Row.mk 1 2 3 4 5 (some 5) 5) (by decide)⟩

section CapFilterLemmas

/-- The retention threshold of line 40. -/
def CAPN : ℕ := BACKTEST * 2 + LOOKBACK * 2

theorem capFilter_eq (g : List Row) :
    capFilter g = ((g.enum).filter (fun a =>
      decide (idxIn a (rankSorted g.enum) + 1 < CAPN))).map Prod.snd := rfl

theorem enum_nodup (g : List Row) : g.enum.Nodup := by
  have h : (g.enum.map Prod.fst).Nodup := by
    rw [List.enum_map_fst]
    exact List.nodup_range _
  exact h.of_map

theorem rankSorted_perm (e : List (ℕ × Row)) : List.Perm (rankSorted e) e :=
  List.perm_insertionSort recLE e

theorem rankSorted_sorted (e : List (ℕ × Row)) :
    (rankSorted e).Sorted recLE :=
  List.sorted_insertionSort recLE e

/-- Membership in the prefix of a list is a bound on the position. -/
theorem mem_take_iff_idxIn {α : Type} [DecidableEq α] {l : List α} {a : α}
    (h : a ∈ l) (n : ℕ) : a ∈ l.take n ↔ idxIn a l < n := by
  induction l generalizing n with
  | nil => cases h
  | cons b l ih =>
    cases n with
    | zero => simp
    | succ n =>
      by_cases hab : a = b
      · subst hab
        simp [List.take_succ_cons, idxIn]
      · have h' : a ∈ l := by
          rcases List.mem_cons.mp h with h | h
          · exact absurd h hab
          · exact h
        rw [List.take_succ_cons, List.mem_cons]
        unfold idxIn
        rw [if_neg hab]
        constructor
        · intro hmem
          rcases hmem with h | h
          · exact absurd h hab
          · exact Nat.succ_lt_succ ((ih h' n).mp h)
        · intro hlt
          exact Or.inr ((ih h' n).mpr (Nat.lt_of_succ_lt_succ hlt))

/-- The keep predicate of line 40 selects exactly the prefix of the
descending rank order. -/
theorem keep_iff_mem_take {g : List Row} {a : ℕ × Row} (ha : a ∈ g.enum) :
    (idxIn a (rankSorted g.enum) + 1 < CAPN) ↔
      a ∈ (rankSorted g.enum).take (CAPN - 1) := by
  have hmem : a ∈ rankSorted g.enum := (rankSorted_perm g.enum).mem_iff.mpr ha
  rw [mem_take_iff_idxIn hmem]
  unfold CAPN BACKTEST LOOKBACK
  omega

/-- Two lists with no duplicates and the same members have the same
length. -/
theorem length_eq_of_nodup_mem {α : Type} {l1 l2 : List α}
    (h1 : l1.Nodup) (h2 : l2.Nodup) (h : ∀ a, a ∈ l1 ↔ a ∈ l2) :
    l1.length = l2.length :=
  ((List.perm_ext_iff_of_nodup h1 h2).mpr h).length_eq

/-- The cap filter keeps exactly min (CAPN - 1) n records: one fewer than
the threshold, because line 40 uses a strict inequality on the rank. -/
theorem capFilter_length (g : List Row) :
    (capFilter g).length = min (CAPN - 1) g.length := by
  rw [capFilter_eq, List.length_map]
  have he : g.enum.Nodup := enum_nodup g
  have hs : (rankSorted g.enum).Nodup :=
    ((rankSorted_perm g.enum).nodup_iff).mpr he
  have ht : ((rankSorted g.enum).take (CAPN - 1)).Nodup :=
    hs.sublist (List.take_sublist _ _)
  have hf : ((g.enum).filter (fun a =>
      decide (idxIn a (rankSorted g.enum) + 1 < CAPN))).Nodup :=
    he.filter _
  have hmem : ∀ a, a ∈ (g.enum).filter (fun a =>
      decide (idxIn a (rankSorted g.enum) + 1 < CAPN)) ↔
      a ∈ (rankSorted g.enum).take (CAPN - 1) := by
    intro a
    rw [List.mem_filter]
    constructor
    · rintro ⟨ha, hk⟩
      exact (keep_iff_mem_take ha).mp (of_decide_eq_true hk)
    · intro hmem
      have ha : a ∈ g.enum := by
        have : a ∈ rankSorted g.enum := List.mem_of_mem_take hmem
        exact (rankSorted_perm g.enum).mem_iff.mp this
      exact ⟨ha, decide_eq_true ((keep_iff_mem_take ha).mpr hmem)⟩
  rw [length_eq_of_nodup_mem hf ht hmem, List.length_take,
    (rankSorted_perm g.enum).length_eq, List.enum_length]

/-- The cap filter preserves frame order. -/
theorem capFilter_sublist (g : List Row) : (capFilter g).Sublist g := by
  rw [capFilter_eq]
  have h : ((g.enum).filter (fun a =>
      decide (idxIn a (rankSorted g.enum) + 1 < CAPN))).Sublist g.enum :=
    List.filter_sublist _
  have := h.map Prod.snd
  rwa [List.enum_map_snd] at this

/-- Indexed rows kept by the cap filter. -/
def keptE (g : List Row) : List (ℕ × Row) :=
  (g.enum).filter (fun a =>
    decide (idxIn a (rankSorted g.enum) + 1 < CAPN))

/-- Indexed rows dropped by the cap filter. -/
def dropE (g : List Row) : List (ℕ × Row) :=
  (g.enum).filter (fun a =>
    ! decide (idxIn a (rankSorted g.enum) + 1 < CAPN))

/-- Every kept row is at least as recent (with the positional tiebreak) as
every dropped row: the filter retains the most recent records. -/
theorem kept_moreRecent_dropped (g : List Row) :
    ∀ a ∈ keptE g, ∀ b ∈ dropE g, recLE a b := by
  intro a ha b hb
  rcases List.mem_filter.mp ha with ⟨hae, hak⟩
  rcases List.mem_filter.mp hb with ⟨hbe, hbk⟩
  have hatake : a ∈ (rankSorted g.enum).take (CAPN - 1) :=
    (keep_iff_mem_take hae).mp (of_decide_eq_true hak)
  have hbdrop : b ∈ (rankSorted g.enum).drop (CAPN - 1) := by
    have hbs : b ∈ rankSorted g.enum := (rankSorted_perm g.enum).mem_iff.mpr hbe
    have hbnot : b ∉ (rankSorted g.enum).take (CAPN - 1) := by
      intro hcon
      have := (keep_iff_mem_take hbe).mpr hcon
      simp [this] at hbk
    have hsplit : rankSorted g.enum =
        (rankSorted g.enum).take (CAPN - 1) ++
          (rankSorted g.enum).drop (CAPN - 1) :=
      (List.take_append_drop _ _).symm
    rw [hsplit] at hbs
    rcases List.mem_append.mp hbs with h | h
    · exact absurd h hbnot
    · exact h
  have hpair : List.Pairwise recLE ((rankSorted g.enum).take (CAPN - 1) ++
      (rankSorted g.enum).drop (CAPN - 1)) := by
    rw [List.take_append_drop]
    exact rankSorted_sorted g.enum
  exact (List.pairwise_append.mp hpair).2.2 a hatake b hbdrop

end CapFilterLemmas

/-- Claim C4 is refuted by the strict rank inequality of line 40: with
exactly BACKTEST * 2 + LOOKBACK * 2 records in a collection the claim says
all of them are retained, but the filter keeps one fewer. -/
theorem claim4_cap_counterexample :
    ((List.range (BACKTEST * 2 + LOOKBACK * 2)).map
        (fun b => Row.mk 1 1 b b 1 (some 1) 0)).length =
      BACKTEST * 2 + LOOKBACK * 2 ∧
    (capFilter ((List.range (BACKTEST * 2 + LOOKBACK * 2)).map
        (fun b => Row.mk 1 1 b b 1 (some 1) 0))).length ≠
      BACKTEST * 2 + LOOKBACK * 2 := by
  constructor
  · rw [List.length_map, List.length_range]
  · rw [capFilter_length, List.length_map, List.length_range]
    unfold CAPN BACKTEST LOOKBACK
    omega

/-- Claim C4 as amended: per collection the working set retains exactly the
BACKTEST * 2 + LOOKBACK * 2 - 1 most recent records by block_number (all of
them when fewer exist), in frame order, ties among equal block numbers
broken by the stable positional order. -/
theorem claim4_cap_amended (g : List Row) :
    (capFilter g).length = min (BACKTEST * 2 + LOOKBACK * 2 - 1) g.length ∧
    (capFilter g).Sublist g ∧
    (∀ a ∈ keptE g, ∀ b ∈ dropE g,
      b.2.block < a.2.block ∨ (a.2.block = b.2.block ∧ a.1 ≤ b.1)) ∧
    capFilter g = (keptE g).map Prod.snd := by
  refine ⟨capFilter_length g, capFilter_sublist g, ?_, rfl⟩
  intro a ha b hb
  exact kept_moreRecent_dropped g a ha b hb

/-- Witness for the amended claim C4 at a concrete two-row collection. -/
theorem claim4_cap_amended_witness :
    (capFilter [Row.mk 1 1 0 3 1 (some 1) 0, Row.mk 1 1 1 2 1 (some 1) 0]).length =
        min (BACKTEST * 2 + LOOKBACK * 2 - 1) 2 ∧
      (capFilter [Row.mk 1 1 0 3 1 (some 1) 0,
        Row.mk 1 1 1 2 1 (some 1) 0]).Sublist
        [Row.mk 1 1 0 3 1 (some 1) 0, Row.mk 1 1 1 2 1 (some 1) 0] :=
  ⟨(claim4_cap_amended _).1.trans (by rw [List.length_cons, List.length_cons,
      List.length_nil]),
    (claim4_cap_amended _).2.1⟩

section DedupLemmas

theorem sortTok_sorted (e : List (ℕ × Row)) : (sortTok e).Sorted tokLE :=
  List.sorted_insertionSort tokLE e

theorem sortTok_perm (e : List (ℕ × Row)) : List.Perm (sortTok e) e :=
  List.perm_insertionSort tokLE e

theorem lastPerKey_sublist : ∀ l : List (ℕ × Row), (lastPerKey l).Sublist l := by
  intro l
  induction l with
  | nil => exact List.Sublist.refl []
  | cons p l ih =>
    unfold lastPerKey
    by_cases h : l.any (fun q => decide (tokOf q.2 = tokOf p.2)) = true
    · rw [if_pos h]
      exact ih.cons p
    · rw [if_neg h]
      exact ih.cons₂ p

/-- A surviving element of lastPerKey has no later element of its key. -/
theorem lastPerKey_split {l : List (ℕ × Row)} {x : ℕ × Row}
    (hx : x ∈ lastPerKey l) :
    ∃ l1 l2, l = l1 ++ x :: l2 ∧ ∀ y ∈ l2, tokOf y.2 ≠ tokOf x.2 := by
  induction l with
  | nil => cases hx
  | cons p l ih =>
    unfold lastPerKey at hx
    by_cases h : l.any (fun q => decide (tokOf q.2 = tokOf p.2)) = true
    · rw [if_pos h] at hx
      rcases ih hx with ⟨l1, l2, heq, hlast⟩
      exact ⟨p :: l1, l2, by rw [heq]; rfl, hlast⟩
    · rw [if_neg h] at hx
      rcases List.mem_cons.mp hx with rfl | hx'
      · refine ⟨[], l, rfl, ?_⟩
        intro y hy hcon
        exact h (List.any_eq_true.mpr ⟨y, hy, decide_eq_true hcon⟩)
      · rcases ih hx' with ⟨l1, l2, heq, hlast⟩
        exact ⟨p :: l1, l2, by rw [heq]; rfl, hlast⟩

/-- The survivors of lastPerKey have pairwise distinct token keys. -/
theorem lastPerKey_pairwise : ∀ l : List (ℕ × Row),
    (lastPerKey l).Pairwise (fun p q => tokOf p.2 ≠ tokOf q.2) := by
  intro l
  induction l with
  | nil => exact List.Pairwise.nil
  | cons p l ih =>
    unfold lastPerKey
    by_cases h : l.any (fun q => decide (tokOf q.2 = tokOf p.2)) = true
    · rw [if_pos h]
      exact ih
    · rw [if_neg h]
      refine List.Pairwise.cons ?_ ih
      intro y hy hcon
      have hyl : y ∈ l := (lastPerKey_sublist l).mem hy
      exact h (List.any_eq_true.mpr ⟨y, hyl, decide_eq_true hcon.symm⟩)

/-- Decoding the token order for two entries of the same token key. -/
theorem tokLE_same_key {q p : ℕ × Row} (hk : tokOf q.2 = tokOf p.2)
    (h : tokLE q p) :
    q.2.block < p.2.block ∨ (q.2.block = p.2.block ∧ q.1 ≤ p.1) := by
  unfold tokOf at hk
  have h1 : q.2.chain = p.2.chain := congrArg Prod.fst hk
  have h2 : q.2.contract = p.2.contract := congrArg (Prod.fst ∘ Prod.snd) hk
  have h3 : q.2.tokenId = p.2.tokenId := congrArg (Prod.snd ∘ Prod.snd) hk
  unfold tokLE keyTok at h
  simp only [lexLeB, h1, h2, h3, beq_self_eq_true, Bool.true_and,
    decide_eq_true_eq, Bool.or_eq_true, Bool.and_eq_true, beq_iff_eq,
    lt_self_iff_false, false_or] at h
  omega

/-- Pairwise key distinctness bounds each key count by one. -/
theorem count_le_one_of_pairwise_ne {l : List (ℕ × Row)} (k : ℕ × ℕ × ℕ)
    (h : l.Pairwise (fun p q => tokOf p.2 ≠ tokOf q.2)) :
    (l.filter (fun p => decide (tokOf p.2 = k))).length ≤ 1 := by
  induction l with
  | nil => simp
  | cons p l ih =>
    rcases List.pairwise_cons.mp h with ⟨hp, hl⟩
    by_cases hk : tokOf p.2 = k
    · have hzero : l.filter (fun p => decide (tokOf p.2 = k)) = [] := by
        rw [List.filter_eq_nil_iff]
        intro q hq
        simp only [decide_eq_true_eq]
        intro hcon
        exact hp q hq (by rw [hk, hcon])
      simp [List.filter_cons, hk, hzero]
    · simpa [List.filter_cons, hk] using ih hl

end DedupLemmas

/-- Claim C6: per TokenKey at most one record survives the dedup of lines
30-31, it has the maximum block_number among same-key inputs, and among
equal block numbers it is the latest in original row order. -/
theorem claim6_dedup (rs : List Row) :
    (∀ k, ((lastPerKey (sortTok rs.enum)).filter
        (fun p => decide (tokOf p.2 = k))).length ≤ 1) ∧
    (∀ p ∈ lastPerKey (sortTok rs.enum), ∀ q ∈ rs.enum,
      tokOf q.2 = tokOf p.2 →
        q.2.block < p.2.block ∨ (q.2.block = p.2.block ∧ q.1 ≤ p.1)) ∧
    dedup rs = (lastPerKey (sortTok rs.enum)).map Prod.snd := by
  refine ⟨fun k => count_le_one_of_pairwise_ne k (lastPerKey_pairwise _),
    ?_, rfl⟩
  intro p hp q hq hk
  have hqs : q ∈ sortTok rs.enum := (sortTok_perm rs.enum).mem_iff.mpr hq
  rcases lastPerKey_split hp with ⟨l1, l2, heq, hlast⟩
  rw [heq] at hqs
  have hsorted : (l1 ++ p :: l2).Pairwise tokLE := by
    rw [← heq]
    exact sortTok_sorted rs.enum
  rcases List.mem_append.mp hqs with hq1 | hq2
  · have hle : tokLE q p :=
      (List.pairwise_append.mp hsorted).2.2 q hq1 p (List.mem_cons_self p l2)
    exact tokLE_same_key hk hle
  · rcases List.mem_cons.mp hq2 with rfl | hq3
    · exact Or.inr ⟨rfl, le_refl _⟩
    · exact absurd hk (hlast q hq3)

/-- Witness for claim C6 at a concrete two-row same-token table. -/
theorem claim6_dedup_witness :
    (1, Row.mk 1 1 7 9 2 (some 2) 2) ∈
        lastPerKey (sortTok [Row.mk 1 1 7 4 1 (some 1) 1,
          Row.mk 1 1 7 9 2 (some 2) 2].enum) ∧
      ((0, Row.mk 1 1 7 4 1 (some 1) 1).2.block <
          (1, Row.mk 1 1 7 9 2 (some 2) 2).2.block ∨
        ((0, Row.mk 1 1 7 4 1 (some 1) 1).2.block =
            (1, Row.mk 1 1 7 9 2 (some 2) 2).2.block ∧
          (0, Row.mk 1 1 7 4 1 (some 1) 1).1 ≤
            (1, Row.mk 1 1 7 9 2 (some 2) 2).1)) :=
  ⟨by decide,
    (claim6_dedup [Row.mk 1 1 7 4 1 (some 1) 1,
      Row.mk 1 1 7 9 2 (some 2) 2]).2.1
      (1, Row.mk 1 1 7 9 2 (some 2) 2) (by decide)
      (0, Row.mk 1 1 7 4 1 (some 1) 1) (by decide) (by decide)⟩

section WindowLemmas

/-- Order of rows by block number. -/
def blockLe (r s : Row) : Prop := r.block ≤ s.block

theorem blkLE_imp_blockLe {a b : ℕ × Row} (h : blkLE a b) :
    blockLe a.2 b.2 := by
  unfold blkLE keyBlk at h
  unfold blockLe
  simp only [lexLeB, Bool.or_eq_true, Bool.and_eq_true, beq_iff_eq,
    decide_eq_true_eq] at h
  omega

theorem sortGroup_pairwise (g : List Row) : (sortGroup g).Pairwise blockLe := by
  unfold sortGroup
  have h : (List.insertionSort blkLE g.enum).Pairwise blkLE :=
    List.sorted_insertionSort blkLE g.enum
  exact h.map Prod.snd (fun a b hab => blkLE_imp_blockLe hab)

theorem sortGroup_perm (g : List Row) : List.Perm (sortGroup g) g := by
  unfold sortGroup
  have h : List.Perm (List.insertionSort blkLE g.enum) g.enum :=
    List.perm_insertionSort blkLE g.enum
  have := h.map Prod.snd
  rwa [List.enum_map_snd] at this

theorem capFilter_pairwise_blockLe (g : List Row) :
    (capFilter (sortGroup g)).Pairwise blockLe :=
  (sortGroup_pairwise g).sublist (capFilter_sublist (sortGroup g))

theorem groupOf_collKey {rs : List Row} {k : ℕ × ℕ} {r : Row}
    (h : r ∈ groupOf rs k) : collKey r = k := by
  unfold groupOf at h
  exact of_decide_eq_true (List.mem_filter.mp h).2

theorem lastN_length (n : ℕ) (l : List α) :
    (lastN n l).length = l.length - (l.length - n) := by
  unfold lastN
  rw [List.length_drop]

theorem lastN_suffix (n : ℕ) (l : List α) : (lastN n l).IsSuffix l :=
  List.drop_suffix _ _

theorem windowAt_length_le (g : List Row) (i : ℕ) :
    (windowAt g i).length ≤ LOOKBACK := by
  unfold windowAt
  rw [lastN_length]
  omega

theorem windowAt_suffix (g : List Row) (i : ℕ) :
    (windowAt g i).IsSuffix ((g.take (i + 1)).map Row.logPrice) :=
  lastN_suffix _ _

/-- Causality of a lookback window over a block-sorted list: every entry is
the log-price of an earlier-or-equal row of the same list. -/
theorem windowAt_causal {g : List Row} (hg : g.Pairwise blockLe) {i : ℕ}
    (hi : i < g.length) :
    ∀ x ∈ windowAt g i, ∃ r ∈ g.take (i + 1), x = r.logPrice ∧
      r.block ≤ (g.get ⟨i, hi⟩).block := by
  intro x hx
  have hx' : x ∈ (g.take (i + 1)).map Row.logPrice :=
    (windowAt_suffix g i).sublist.mem hx
  rcases List.mem_map.mp hx' with ⟨r, hr, rfl⟩
  refine ⟨r, hr, rfl, ?_⟩
  have hget : g[i]? = some (g.get ⟨i, hi⟩) := by
    rw [List.getElem?_eq_getElem hi]
    rfl
  have htake : g.take (i + 1) = g.take i ++ g[i]?.toList := List.take_succ
  rw [htake, hget] at hr
  rcases List.mem_append.mp hr with h1 | h2
  · have hpt : (g.take (i + 1)).Pairwise blockLe :=
      hg.sublist (List.take_sublist _ _)
    rw [htake, hget] at hpt
    exact (List.pairwise_append.mp hpt).2.2 r h1 (g.get ⟨i, hi⟩)
      (by simp [Option.toList])
  · have : r = g.get ⟨i, hi⟩ := by simpa [Option.toList] using h2
    rw [this]

theorem mkWindows_length (g : List Row) : (mkWindows g).length = g.length := by
  unfold mkWindows
  rw [List.length_map, List.enum_length]

theorem mkWindows_get (g : List Row) (i : ℕ) (h : i < g.length)
    (h' : i < (mkWindows g).length) :
    (mkWindows g).get ⟨i, h'⟩ = (g.get ⟨i, h⟩, windowAt g i) := by
  unfold mkWindows
  simp [List.getElem_enum]

end WindowLemmas

/-- Claim C7: every lookback window built for a trade of a collection
contains only log-prices of surviving same-collection trades with block
number at most that trade's block number, in arrival order (the window is a
suffix of the prefix of the frame ending at the trade), and its length
never exceeds LOOKBACK. -/
theorem claim7_window_causal (rs : List Row) (k : ℕ × ℕ) (i : ℕ)
    (hi : i < (capFilter (sortGroup (groupOf rs k))).length) :
    (windowAt (capFilter (sortGroup (groupOf rs k))) i).length ≤ LOOKBACK ∧
    (windowAt (capFilter (sortGroup (groupOf rs k))) i).IsSuffix
      (((capFilter (sortGroup (groupOf rs k))).take (i + 1)).map Row.logPrice) ∧
    (∀ x ∈ windowAt (capFilter (sortGroup (groupOf rs k))) i,
      ∃ r ∈ capFilter (sortGroup (groupOf rs k)), x = r.logPrice ∧
        collKey r = k ∧
        r.block ≤ ((capFilter (sortGroup (groupOf rs k))).get ⟨i, hi⟩).block) ∧
    (mkWindows (capFilter (sortGroup (groupOf rs k)))).get
        ⟨i, by rwa [mkWindows_length]⟩ =
      ((capFilter (sortGroup (groupOf rs k))).get ⟨i, hi⟩,
        windowAt (capFilter (sortGroup (groupOf rs k))) i) := by
  refine ⟨windowAt_length_le _ i, windowAt_suffix _ i, ?_, mkWindows_get _ i hi _⟩
  intro x hx
  rcases windowAt_causal (capFilter_pairwise_blockLe (groupOf rs k)) hi x hx with
    ⟨r, hr, hxr, hblk⟩
  have hrg : r ∈ capFilter (sortGroup (groupOf rs k)) :=
    (List.take_sublist _ _).mem hr
  have hrk : collKey r = k := by
    have h1 : r ∈ sortGroup (groupOf rs k) :=
      (capFilter_sublist _).mem hrg
    have h2 : r ∈ groupOf rs k := (sortGroup_perm _).mem_iff.mp h1
    exact groupOf_collKey h2
  exact ⟨r, hrg, hxr, hrk, hblk⟩

/-- Witness for claim C7 at a concrete two-trade collection. -/
theorem claim7_window_causal_witness :
    1 < (capFilter (sortGroup (groupOf
        [Row.mk 1 1 0 4 1 (some 1) 1, Row.mk 1 1 1 9 2 (some 2) 2] (1, 1)))).length ∧
      (windowAt (capFilter (sortGroup (groupOf
        [Row.mk 1 1 0 4 1 (some 1) 1, Row.mk 1 1 1 9 2 (some 2) 2] (1, 1)))) 1).length ≤
        LOOKBACK :=
  ⟨by decide,
    (claim7_window_causal
      [Row.mk 1 1 0 4 1 (some 1) 1, Row.mk 1 1 1 9 2 (some 2) 2] (1, 1) 1
      (by decide)).1⟩

/-- Claim C3 is refuted: main has no try/except, so an
InsufficientDataError raised while computing a quantile aborts the whole
run.  Concretely, with an outlier rule that empties one collection's
windows, a two-collection input produces a global error instead of one
emitted record for the healthy collection. -/
theorem claim3_error_counterexample :
    (keysOf (preprocess id [Trade.mk 1 10 100 5 2 (some 2),
        Trade.mk 1 20 100 7 4 (some 4)])).length = 2 ∧
      runPipeline id id (fun _ => [])
        [Trade.mk 1 10 100 5 2 (some 2), Trade.mk 1 20 100 7 4 (some 4)] =
        .error .insufficientData := by
  constructor
  · decide
  · decide

/-- Claim C3 as amended: if the quantile computation fails for some
window of any collection, the error propagates out of the whole run and no
collection's floor price is emitted; nothing restricts the failure to the
offending collection. -/
theorem claim3_error_amended (lg ex : ℚ → ℚ) (ro : List ℚ → List ℚ)
    (raw : List Trade) (k : ℕ × ℕ) (e : QErr)
    (hk : k ∈ keysOf (preprocess lg raw))
    (he : perCollection ex ro (groupOf (preprocess lg raw) k) = .error e) :
    ∃ e', runPipeline lg ex ro raw = .error e' := by
  rcases mapME_error_of_mem
      (fun k => perCollection ex ro (groupOf (preprocess lg raw) k)) hk he with
    ⟨e', he'⟩
  refine ⟨e', ?_⟩
  unfold runPipeline
  rw [he']

/-- Witness for the amended claim C3 at the concrete failing input. -/
theorem claim3_error_amended_witness :
    (1, 10) ∈ keysOf (preprocess id [Trade.mk 1 10 100 5 2 (some 2),
        Trade.mk 1 20 100 7 4 (some 4)]) ∧
      perCollection id (fun _ => [])
        (groupOf (preprocess id [Trade.mk 1 10 100 5 2 (some 2),
          Trade.mk 1 20 100 7 4 (some 4)]) (1, 10)) =
        .error .insufficientData ∧
      ∃ e', runPipeline id id (fun _ => [])
        [Trade.mk 1 10 100 5 2 (some 2), Trade.mk 1 20 100 7 4 (some 4)] =
        .error e' :=
  ⟨by decide, by decide,
    claim3_error_amended id id (fun _ => [])
      [Trade.mk 1 10 100 5 2 (some 2), Trade.mk 1 20 100 7 4 (some 4)]
      (1, 10) .insufficientData (by decide) (by decide)⟩

/-- Claim C5: the observed hit rate of a collection is the number of
backtest trades whose own log-price is at most their own nominal estimate,
divided by the number of backtest trades, and it lies in the unit
interval. -/
theorem claim5_hit_rate (bt : List (Row × List ℚ)) (ts : List (Row × ℚ))
    (h : nominalOf bt = .ok ts) :
    obsRate ts =
      ((ts.countP (fun p => decide (p.1.logPrice ≤ p.2)) : ℚ)) / (bt.length : ℚ) ∧
    (∀ i (h1 : i < bt.length) (h2 : i < ts.length),
      (ts.get ⟨i, h2⟩).1 = (bt.get ⟨i, h1⟩).1 ∧
      compute_quantile (bt.get ⟨i, h1⟩).2 PCT_TARGET = .ok (ts.get ⟨i, h2⟩).2) ∧
    0 ≤ obsRate ts ∧ obsRate ts ≤ 1 := by
  have hlen : ts.length = bt.length := mapME_ok_length h
  refine ⟨by rw [obsRate, hlen], ?_, ?_, ?_⟩
  · intro i h1 h2
    have hfa := mapME_ok_get h i h1 h2
    cases hcq : compute_quantile (bt.get ⟨i, h1⟩).2 PCT_TARGET with
    | error e => rw [hcq] at hfa; cases hfa
    | ok t =>
      rw [hcq] at hfa
      injection hfa with h
      rw [← h]
      exact ⟨rfl, rfl⟩
  · unfold obsRate
    positivity
  · unfold obsRate
    rcases Nat.eq_zero_or_pos ts.length with h0 | hpos
    · rw [h0]
      norm_num
    · have hc : (ts.countP (fun p => decide (p.1.logPrice ≤ p.2)) : ℚ) ≤
          (ts.length : ℚ) := by
        exact_mod_cast List.countP_le_length _
      have hlp : (0 : ℚ) < (ts.length : ℚ) := by exact_mod_cast hpos
      rw [div_le_one hlp]
      exact hc

/-- Witness for claim C5 at a concrete one-window horizon. -/
theorem claim5_hit_rate_witness :
    nominalOf [(Row.mk 1 1 0 4 1 (some 1) 1, [1, 2])] =
        .ok [(Row.mk 1 1 0 4 1 (some 1) 1, 21/20)] ∧
      obsRate [(Row.mk 1 1 0 4 1 (some 1) 1, 21/20)] =
        (([(Row.mk 1 1 0 4 1 (some 1) 1, (21 : ℚ)/20)].countP
          (fun p => decide (p.1.logPrice ≤ p.2)) : ℚ)) /
          (([((Row.mk 1 1 0 4 1 (some 1) 1 : Row), ([1, 2] : List ℚ))].length : ℚ)) ∧
      0 ≤ obsRate [(Row.mk 1 1 0 4 1 (some 1) 1, 21/20)] ∧
      obsRate [(Row.mk 1 1 0 4 1 (some 1) 1, 21/20)] ≤ 1 :=
  ⟨by decide,
    (claim5_hit_rate [(Row.mk 1 1 0 4 1 (some 1) 1, [1, 2])]
      [(Row.mk 1 1 0 4 1 (some 1) 1, 21/20)] (by decide)).1,
    (claim5_hit_rate [(Row.mk 1 1 0 4 1 (some 1) 1, [1, 2])]
      [(Row.mk 1 1 0 4 1 (some 1) 1, 21/20)] (by decide)).2.2.1,
    (claim5_hit_rate [(Row.mk 1 1 0 4 1 (some 1) 1, [1, 2])]
      [(Row.mk 1 1 0 4 1 (some 1) 1, 21/20)] (by decide)).2.2.2⟩

section OutputLemmas

theorem exceptBind_eq_ok {ε α β : Type} {x : Except ε α} {f : α → Except ε β}
    {y : β} : x.bind f = .ok y ↔ ∃ a, x = .ok a ∧ f a = .ok y := by
  cases x with
  | error e =>
    simp only [Except.bind]
    constructor
    · intro h; cases h
    · rintro ⟨a, ha, _⟩; cases ha
  | ok a =>
    simp only [Except.bind]
    constructor
    · intro h; exact ⟨a, rfl, h⟩
    · rintro ⟨a', ha, hf⟩
      injection ha with ha
      rw [ha]
      exact hf

/-- Characterization of a successful per-collection run. -/
theorem perCollection_ok_iff {ex : ℚ → ℚ} {ro : List ℚ → List ℚ}
    {g : List Row} {l : List OutRec} :
    perCollection ex ro g = .ok l ↔
      ∃ ts vs, nominalOf (collPipe ro g) = .ok ts ∧
        adjLogsOf (collPipe ro g) (adjTargetOf ts) = .ok vs ∧
        l = (lastN 1 vs).map
          (fun p => OutRec.mk p.1.chain p.1.contract (ex p.2)) := by
  unfold perCollection
  rw [exceptBind_eq_ok]
  constructor
  · rintro ⟨ts, hts, hrest⟩
    rcases exceptBind_eq_ok.mp hrest with ⟨vs, hvs, hl⟩
    injection hl with hl
    exact ⟨ts, vs, hts, hvs, hl.symm⟩
  · rintro ⟨ts, vs, hts, hvs, hl⟩
    refine ⟨ts, hts, exceptBind_eq_ok.mpr ⟨vs, hvs, ?_⟩⟩
    rw [hl]

theorem mapME_ok_of_mem {α β : Type} (g : α → Except QErr β) :
    ∀ {l : List α} {ys : List β}, mapME g l = .ok ys →
      ∀ {a : α}, a ∈ l → ∃ y, g a = .ok y := by
  intro l
  induction l with
  | nil => intro ys h a ha; cases ha
  | cons b l ih =>
    intro ys h a ha
    unfold mapME at h
    cases hgb : g b with
    | error e => rw [hgb] at h; cases h
    | ok y =>
      rw [hgb] at h
      cases hrec : mapME g l with
      | error e => rw [hrec] at h; cases h
      | ok bs =>
        rcases List.mem_cons.mp ha with rfl | hmem
        · exact ⟨y, hgb⟩
        · exact ih hrec hmem

theorem lastN_one {α : Type} : ∀ {l : List α}, l ≠ [] →
    ∃ b, lastN 1 l = [b] ∧ l.getLast? = some b := by
  intro l
  induction l with
  | nil => intro h; exact absurd rfl h
  | cons a l ih =>
    intro _
    cases l with
    | nil => exact ⟨a, rfl, rfl⟩
    | cons c l' =>
      rcases ih (by simp) with ⟨b, hb1, hb2⟩
      refine ⟨b, ?_, ?_⟩
      · have hlen : (a :: c :: l').length - 1 = (c :: l').length := by
          simp
        unfold lastN at hb1 ⊢
        rw [hlen]
        have : (c :: l').length = ((c :: l').length - 1) + 1 := by simp
        rw [this, List.drop_succ_cons]
        exact hb1
      · rw [List.getLast?_cons_cons]
        exact hb2

theorem mapME_flatten_singletons {α β : Type} (g : α → Except QErr (List β)) :
    ∀ {l : List α} {ys : List (List β)},
      mapME g l = .ok ys → (∀ a ∈ l, ∃ b, g a = .ok [b]) →
      ys.flatten.length = l.length ∧
      ∀ i (h1 : i < l.length) (h2 : i < ys.flatten.length),
        g (l.get ⟨i, h1⟩) = .ok [ys.flatten.get ⟨i, h2⟩] := by
  intro l
  induction l with
  | nil =>
    intro ys h _
    cases h
    exact ⟨rfl, fun i h1 => absurd h1 (Nat.not_lt_zero i)⟩
  | cons a l ih =>
    intro ys h hsing
    unfold mapME at h
    cases hga : g a with
    | error e => rw [hga] at h; cases h
    | ok bs =>
      rw [hga] at h
      cases hrec : mapME g l with
      | error e => rw [hrec] at h; cases h
      | ok ys' =>
        rw [hrec] at h
        cases h
        rcases hsing a (List.mem_cons_self a l) with ⟨b, hb⟩
        have hbs : bs = [b] := by
          rw [hga] at hb
          injection hb
        subst hbs
        rcases ih hrec (fun x hx => hsing x (List.mem_cons_of_mem a hx)) with
          ⟨ihlen, ihget⟩
        constructor
        · simp [List.flatten, ihlen]
        · intro i h1 h2
          cases i with
          | zero => simpa using hb
          | succ j =>
            have hj1 : j < l.length := Nat.lt_of_succ_lt_succ h1
            have hj2 : j < ys'.flatten.length := by
              have := h2
              simp only [List.flatten, List.singleton_append,
                List.length_cons] at this
              exact Nat.lt_of_succ_lt_succ this
            simpa using ihget j hj1 hj2

theorem groupOf_ne_nil {rs : List Row} {k : ℕ × ℕ} (hk : k ∈ keysOf rs) :
    groupOf rs k ≠ [] := by
  unfold keysOf at hk
  rw [List.mem_dedup] at hk
  rcases List.mem_map.mp hk with ⟨r, hr, hck⟩
  have : r ∈ groupOf rs k :=
    List.mem_filter.mpr ⟨hr, decide_eq_true hck⟩
  exact List.ne_nil_of_mem this

theorem length_sortGroup (g : List Row) : (sortGroup g).length = g.length := by
  unfold sortGroup
  rw [List.length_map, (List.perm_insertionSort blkLE g.enum).length_eq,
    List.enum_length]

theorem collPipe_length (ro : List ℚ → List ℚ) (g : List Row) :
    (collPipe ro g).length =
      (capFilter (sortGroup g)).length -
        ((capFilter (sortGroup g)).length - BACKTEST) := by
  unfold collPipe filtWins backtestOf
  rw [List.length_map, lastN_length, mkWindows_length]

theorem collPipe_ne_nil {ro : List ℚ → List ℚ} {g : List Row} (hg : g ≠ []) :
    collPipe ro g ≠ [] := by
  have hglen : 0 < g.length := List.length_pos.mpr hg
  have hcap : (capFilter (sortGroup g)).length =
      min (CAPN - 1) g.length := by
    rw [capFilter_length, length_sortGroup]
  have hcapn : 1 ≤ CAPN - 1 := by unfold CAPN BACKTEST LOOKBACK; omega
  have hb : 1 ≤ BACKTEST := by unfold BACKTEST; omega
  have hlen := collPipe_length ro g
  intro hc
  rw [hc] at hlen
  simp only [List.length_nil] at hlen
  omega

theorem mapME_ok_getLast {α β : Type} {f : α → Except QErr β} :
    ∀ {l : List α} {ys : List β} {a : α}, mapME f l = .ok ys →
      l.getLast? = some a → ∃ y, ys.getLast? = some y ∧ f a = .ok y := by
  intro l
  induction l with
  | nil => intro ys a h hl; cases hl
  | cons b l ih =>
    intro ys a h hl
    unfold mapME at h
    cases hfb : f b with
    | error e => rw [hfb] at h; cases h
    | ok y =>
      rw [hfb] at h
      cases hrec : mapME f l with
      | error e => rw [hrec] at h; cases h
      | ok bs =>
        rw [hrec] at h
        cases h
        cases l with
        | nil =>
          cases hrec
          injection hl with hl
          rw [← hl]
          exact ⟨y, rfl, hfb⟩
        | cons c l' =>
          rw [List.getLast?_cons_cons] at hl
          rcases ih hrec hl with ⟨y', hy'1, hy'2⟩
          refine ⟨y', ?_, hy'2⟩
          have hbs : bs ≠ [] := by
            intro hc
            rw [hc] at hy'1
            cases hy'1
          cases bs with
          | nil => exact absurd rfl hbs
          | cons d ds => rw [List.getLast?_cons_cons]; exact hy'1

theorem perCollection_ok_struct {ex : ℚ → ℚ} {ro : List ℚ → List ℚ}
    {g : List Row} {l : List OutRec} (hg : g ≠ [])
    (h : perCollection ex ro g = .ok l) :
    ∃ ts vs r w v,
      nominalOf (collPipe ro g) = .ok ts ∧
      adjLogsOf (collPipe ro g) (adjTargetOf ts) = .ok vs ∧
      (collPipe ro g).getLast? = some (r, w) ∧
      compute_quantile w (adjTargetOf ts) = .ok v ∧
      l = [OutRec.mk r.chain r.contract (ex v)] := by
  rcases perCollection_ok_iff.mp h with ⟨ts, vs, hn, ha, hl⟩
  have hbt : collPipe ro g ≠ [] := collPipe_ne_nil hg
  obtain ⟨p, hplast⟩ : ∃ p, (collPipe ro g).getLast? = some p := by
    cases hlast : (collPipe ro g).getLast? with
    | none =>
      cases hc : collPipe ro g with
      | nil => exact absurd hc hbt
      | cons q qs =>
        rw [hc] at hlast
        rcases lastN_one (l := q :: qs) (by simp) with ⟨b, _, hb⟩
        rw [hlast] at hb
        cases hb
    | some p => exact ⟨p, rfl⟩
  obtain ⟨y, hylast, hfy⟩ := mapME_ok_getLast ha hplast
  cases hcq : compute_quantile p.2 (adjTargetOf ts) with
  | error e => rw [hcq] at hfy; cases hfy
  | ok v =>
    rw [hcq] at hfy
    injection hfy with hfy
    have hvs : vs ≠ [] := by
      intro hc
      rw [hc] at hylast
      cases hylast
    rcases lastN_one hvs with ⟨b, hone, hblast⟩
    have hby : b = y := by
      rw [hylast] at hblast
      injection hblast with hblast
      exact hblast.symm
    refine ⟨ts, vs, p.1, p.2, v, hn, ha, ?_, hcq, ?_⟩
    · rw [hplast]
    · rw [hl, hone, hby, ← hfy]
      rfl

theorem mem_of_getLast?_eq {α : Type} : ∀ {l : List α} {a : α},
    l.getLast? = some a → a ∈ l := by
  intro l
  induction l with
  | nil => intro a h; cases h
  | cons b l ih =>
    intro a h
    cases l with
    | nil =>
      rw [List.getLast?_singleton] at h
      injection h with h
      rw [← h]
      exact List.mem_cons_self b []
    | cons c l' =>
      rw [List.getLast?_cons_cons] at h
      exact List.mem_cons_of_mem b (ih h)

theorem le_getLast_of_pairwise : ∀ {l : List Row}, l.Pairwise blockLe →
    ∀ {r : Row}, l.getLast? = some r → ∀ s ∈ l, s.block ≤ r.block := by
  intro l
  induction l with
  | nil => intro _ r h; cases h
  | cons a l ih =>
    intro hp r hl s hs
    rcases List.pairwise_cons.mp hp with ⟨ha, htail⟩
    cases l with
    | nil =>
      rw [List.getLast?_singleton] at hl
      injection hl with hl
      rcases List.mem_singleton.mp hs with rfl
      rw [← hl]
    | cons c l' =>
      rw [List.getLast?_cons_cons] at hl
      rcases List.mem_cons.mp hs with rfl | hs'
      · have hr : r ∈ c :: l' := mem_of_getLast?_eq hl
        exact ha r hr
      · exact ih htail hl s hs'

theorem mkWindows_map_fst (g : List Row) : (mkWindows g).map Prod.fst = g := by
  unfold mkWindows
  rw [List.map_map]
  have h : (Prod.fst ∘ fun p : ℕ × Row => (p.2, windowAt g p.1)) =
      Prod.snd := rfl
  rw [h, List.enum_map_snd]

/-- capFilter is the projection of the kept indexed rows. -/
theorem capFilter_eq_keptE (g : List Row) :
    capFilter g = (keptE g).map Prod.snd := rfl

/-- The record emitted for a collection is its block-wise most recent
surviving trade: the last row of the backtest series belongs to the capped
set and dominates every row of the collection by block number. -/
theorem collPipe_getLast_mostRecent {ro : List ℚ → List ℚ} {g : List Row}
    {r : Row} {w : List ℚ} (h : (collPipe ro g).getLast? = some (r, w)) :
    r ∈ capFilter (sortGroup g) ∧ ∀ s ∈ g, s.block ≤ r.block := by
  unfold collPipe filtWins at h
  rw [List.getLast?_map] at h
  cases hb : (backtestOf (mkWindows (capFilter (sortGroup g)))).getLast? with
  | none => rw [hb] at h; cases h
  | some p =>
    rw [hb] at h
    injection h with h
    have hr : p.1 = r := congrArg Prod.fst h
    have hsuf : (backtestOf (mkWindows (capFilter (sortGroup g)))).IsSuffix
        (mkWindows (capFilter (sortGroup g))) := lastN_suffix _ _
    obtain ⟨t, ht⟩ := hsuf
    have hws : (mkWindows (capFilter (sortGroup g))).getLast? = some p := by
      rw [← ht, List.getLast?_append, hb]
      rfl
    have hg2 : (capFilter (sortGroup g)).getLast? = some r := by
      rw [← mkWindows_map_fst (capFilter (sortGroup g)), List.getLast?_map,
        hws, ← hr]
      rfl
    have hrg2 : r ∈ capFilter (sortGroup g) := mem_of_getLast?_eq hg2
    have hle2 : ∀ s ∈ capFilter (sortGroup g), s.block ≤ r.block :=
      le_getLast_of_pairwise (capFilter_pairwise_blockLe g) hg2
    refine ⟨hrg2, ?_⟩
    intro s hs
    have hsg : s ∈ sortGroup g := (sortGroup_perm g).mem_iff.mpr hs
    have hsg' : s ∈ (sortGroup g).enum.map Prod.snd := by
      rwa [List.enum_map_snd]
    rcases List.mem_map.mp hsg' with ⟨q, hq, hq2⟩
    by_cases hkeep : idxIn q (rankSorted (sortGroup g).enum) + 1 < CAPN
    · have hqk : q ∈ keptE (sortGroup g) :=
        List.mem_filter.mpr ⟨hq, decide_eq_true hkeep⟩
      have : q.2 ∈ capFilter (sortGroup g) := by
        rw [capFilter_eq_keptE]
        exact List.mem_map.mpr ⟨q, hqk, rfl⟩
      rw [← hq2]
      exact hle2 q.2 this
    · have hqd : q ∈ dropE (sortGroup g) := by
        refine List.mem_filter.mpr ⟨hq, ?_⟩
        simp [hkeep]
      have hkne : keptE (sortGroup g) ≠ [] := by
        intro hc
        have h1 : capFilter (sortGroup g) = [] := by
          rw [capFilter_eq_keptE, hc]
          rfl
        exact (List.ne_nil_of_mem hrg2) h1
      rcases List.exists_mem_of_ne_nil _ hkne with ⟨a, hak⟩
      have hrec : recLE a q := kept_moreRecent_dropped (sortGroup g) a hak q hqd
      have hqa : q.2.block ≤ a.2.block := by
        unfold recLE at hrec
        omega
      have ha2 : a.2 ∈ capFilter (sortGroup g) := by
        rw [capFilter_eq_keptE]
        exact List.mem_map.mpr ⟨a, hak, rfl⟩
      have := hle2 a.2 ha2
      rw [← hq2]
      omega

end OutputLemmas

/-- Claim C2: a successful run emits exactly one record per surviving
collection, and its floor_price_est is exp of the quantile, at the
collection's adjusted target, of the outlier-filtered lookback window of
the block-wise most recent trade of that collection. -/
theorem claim2_unique_output (lg ex : ℚ → ℚ) (ro : List ℚ → List ℚ)
    (raw : List Trade) (outs : List OutRec)
    (h : runPipeline lg ex ro raw = .ok outs) :
    (keysOf (preprocess lg raw)).Nodup ∧
    outs.length = (keysOf (preprocess lg raw)).length ∧
    ∀ i (hi : i < (keysOf (preprocess lg raw)).length) (ho : i < outs.length),
      ∃ ts r w v,
        nominalOf (collPipe ro (groupOf (preprocess lg raw)
          ((keysOf (preprocess lg raw)).get ⟨i, hi⟩))) = .ok ts ∧
        (collPipe ro (groupOf (preprocess lg raw)
          ((keysOf (preprocess lg raw)).get ⟨i, hi⟩))).getLast? = some (r, w) ∧
        compute_quantile w (adjTargetOf ts) = .ok v ∧
        outs.get ⟨i, ho⟩ = OutRec.mk r.chain r.contract (ex v) ∧
        collKey r = (keysOf (preprocess lg raw)).get ⟨i, hi⟩ ∧
        ∀ s ∈ groupOf (preprocess lg raw)
            ((keysOf (preprocess lg raw)).get ⟨i, hi⟩),
          s.block ≤ r.block := by
  unfold runPipeline at h
  revert h
  cases hm : mapME (fun k => perCollection ex ro (groupOf (preprocess lg raw) k))
      (keysOf (preprocess lg raw)) with
  | error e =>
    intro h
    cases h
  | ok ys =>
    intro h
    injection h with h
    subst h
    refine ⟨List.nodup_dedup _, ?_⟩
    have hsing : ∀ k ∈ keysOf (preprocess lg raw),
        ∃ b, perCollection ex ro (groupOf (preprocess lg raw) k) = .ok [b] := by
      intro k hk
      rcases mapME_ok_of_mem _ hm hk with ⟨l', hl'⟩
      rcases perCollection_ok_struct (groupOf_ne_nil hk) hl' with
        ⟨ts, vs, r, w, v, _, _, _, _, hl⟩
      exact ⟨OutRec.mk r.chain r.contract (ex v), by rw [hl'] ; rw [hl]⟩
    rcases mapME_flatten_singletons _ hm hsing with ⟨hlen, hget⟩
    refine ⟨hlen, ?_⟩
    intro i hi ho
    have hgi := hget i hi (by rwa [hlen])
    have hkmem : (keysOf (preprocess lg raw)).get ⟨i, hi⟩ ∈
        keysOf (preprocess lg raw) := List.get_mem _ _ hi
    rcases perCollection_ok_struct (groupOf_ne_nil hkmem) hgi with
      ⟨ts, vs, r, w, v, hn, ha, hlast, hcq, hl⟩
    have hout : ys.flatten.get ⟨i, by rwa [hlen]⟩ =
        OutRec.mk r.chain r.contract (ex v) := by
      injection hl with hl
    rcases collPipe_getLast_mostRecent hlast with ⟨hrcap, hrle⟩
    have hrk : collKey r = (keysOf (preprocess lg raw)).get ⟨i, hi⟩ := by
      have h1 : r ∈ sortGroup (groupOf (preprocess lg raw)
          ((keysOf (preprocess lg raw)).get ⟨i, hi⟩)) :=
        (capFilter_sublist _).mem hrcap
      have h2 : r ∈ groupOf (preprocess lg raw)
          ((keysOf (preprocess lg raw)).get ⟨i, hi⟩) :=
        (sortGroup_perm _).mem_iff.mp h1
      exact groupOf_collKey h2
    exact ⟨ts, r, w, v, hn, hlast, hcq, hout, hrk, hrle⟩

/-- Witness for claim C2 at a concrete two-collection table. -/
theorem claim2_unique_output_witness :
    runPipeline id id id [Trade.mk 1 10 100 5 2 (some 2),
        Trade.mk 1 20 100 7 4 (some 4)] =
      .ok [OutRec.mk 1 10 2, OutRec.mk 1 20 4] ∧
    ([OutRec.mk 1 10 2, OutRec.mk 1 20 4] : List OutRec).length =
      (keysOf (preprocess id [Trade.mk 1 10 100 5 2 (some 2),
        Trade.mk 1 20 100 7 4 (some 4)])).length :=
  ⟨by decide,
    (claim2_unique_output id id id
      [Trade.mk 1 10 100 5 2 (some 2), Trade.mk 1 20 100 7 4 (some 4)]
      [OutRec.mk 1 10 2, OutRec.mk 1 20 4] (by decide)).2.1⟩

end CbNft
